import Mathlib

/-!
Verification development for the `feast_spark_offline_store` repository.

The core of the repository is the SQL template
`MULTIPLE_FEATURE_VIEW_POINT_IN_TIME_JOIN` in `spark.py`, which performs a
point-in-time join of an entity dataframe against the sources of several
feature views.  This file gives a shallow embedding of that template as
executable Lean functions over lists of rows, together with embeddings of
`SparkSource`/`SparkOptions` (`spark_source.py`) and of the query built by
`SparkOfflineStore.pull_latest_from_table_or_query` (`spark.py`), and proves
or refutes the specification claims about them.

Modelling conventions:
* timestamps are natural numbers (epoch seconds, always non-negative); the
  SQL expression `ts - interval 'ttl' second` is embedded as truncated `Nat`
  subtraction, which agrees with the integer semantics on non-negative
  operands (for `ttl > ts` both make the window constraint vacuous);
* column values are strings; `CAST(x AS STRING)` of a key value is the value
  itself and `CAST(ts AS STRING)` is `Nat.repr`;
* SQL multisets are lists; `GROUP BY` with no aggregate is `List.dedup`.
-/

namespace FeastSpark

/-- SQL `CONCAT` of a list of strings (no separator), as used to build the
`{{featureview.name}}__entity_row_unique_id` column. -/
def sqlConcat : List String → String
  | [] => ""
  | s :: rest => s ++ sqlConcat rest

/-- A row of the entity dataframe: named key columns plus the event-timestamp
column (`entity_timestamp` in the template). -/
structure EntityRow where
  keys : List (String × String)
  ts : Nat
deriving DecidableEq, Repr

/-- A row of a feature view's source relation: named key columns, the event
timestamp, the created timestamp (only consulted when the view declares a
created-timestamp column) and the named feature payload. -/
structure SourceRow where
  keys : List (String × String)
  eventTs : Nat
  createdTs : Nat
  features : List (String × String)
deriving DecidableEq, Repr

/-- The per-view metadata the template consumes: `featureview.name`,
`featureview.entities`, `featureview.features`, `featureview.ttl` (seconds,
`0` meaning no TTL) and whether a created-timestamp column is declared. -/
structure FeatureView where
  name : String
  entities : List String
  features : List String
  ttl : Nat
  hasCreated : Bool
deriving DecidableEq, Repr

/-- Value of a named column in a row, as an association list lookup. -/
def getVal (kvs : List (String × String)) (c : String) : String :=
  (List.lookup c kvs).getD ""

/-- The `{{featureview.name}}__entity_row_unique_id` column:
`CONCAT(CAST(entity_1 AS STRING), ..., CAST(entity_n AS STRING),
CAST(event_timestamp AS STRING))` (template lines 253-265 of `spark.py`). -/
def entityRowUniqueId (v : FeatureView) (e : EntityRow) : String :=
  sqlConcat (v.entities.map (fun c => getVal e.keys c) ++ [Nat.repr e.ts])

/-- A row of the per-view `{{featureview.name}}__entity_dataframe` CTE:
the view's entity key values (in `featureview.entities` order), the entity
timestamp and the unique-id column. -/
structure ViewEntityRow where
  keys : List String
  ts : Nat
  uid : String
deriving DecidableEq, Repr

/-- Projection of an entity row onto one view's join columns. -/
def projectEntity (v : FeatureView) (e : EntityRow) : ViewEntityRow :=
  ⟨v.entities.map (fun c => getVal e.keys c), e.ts, entityRowUniqueId v e⟩

/-- The `{{featureview.name}}__entity_dataframe` CTE: `SELECT entities,
entity_timestamp, unique_id FROM entity_dataframe GROUP BY ...` — the
distinct projected rows. -/
def viewEntityDf (v : FeatureView) (es : List EntityRow) : List ViewEntityRow :=
  (es.map (projectEntity v)).dedup

/-- SQL `MAX` aggregate over a column (`none` on the empty relation). -/
def listMax : List Nat → Option Nat
  | [] => none
  | t :: ts => some (ts.foldl max t)

/-- SQL `MIN` aggregate over a column (`none` on the empty relation). -/
def listMin : List Nat → Option Nat
  | [] => none
  | t :: ts => some (ts.foldl min t)

/-- The global prefilter condition of the `__subquery` CTE:
`event_timestamp <= max_entity_timestamp_` and, when the view has a TTL,
`event_timestamp >= min_entity_timestamp_ - ttl`. -/
def prefilterKeeps (v : FeatureView) (maxT minT : Nat) (s : SourceRow) : Bool :=
  decide (s.eventTs ≤ maxT) && (v.ttl == 0 || decide (minT - v.ttl ≤ s.eventTs))

/-- The `{{featureview.name}}__subquery` CTE: the view's source rows joined
against the one-row aggregate `SELECT MAX(entity_timestamp), MIN(...) - ttl
FROM entity_dataframe`.  On an empty entity dataframe the aggregates are SQL
`NULL` and the join condition holds for no row. -/
def subquery (v : FeatureView) (es : List EntityRow) (srcs : List SourceRow) :
    List SourceRow :=
  match listMax (es.map EntityRow.ts), listMin (es.map EntityRow.ts) with
  | some maxT, some minT => srcs.filter (prefilterKeeps v maxT minT)
  | _, _ => []

/-- A row of the `{{featureview.name}}__base` CTE: the source row's columns
(with the view's key columns projected out) plus the matched entity row's
`entity_timestamp` and unique id. -/
structure BaseRow where
  eventTs : Nat
  createdTs : Nat
  keys : List String
  features : List (String × String)
  entityTs : Nat
  uid : String
deriving DecidableEq, Repr

/-- The exact per-row join condition of the `__base` CTE:
`subquery.event_timestamp <= entity_dataframe.entity_timestamp`, when a TTL
is set also `subquery.event_timestamp >= entity_timestamp - ttl`, and
equality of every entity key column. -/
def baseJoinCond (v : FeatureView) (s : SourceRow) (er : ViewEntityRow) : Bool :=
  decide (s.eventTs ≤ er.ts) &&
  (v.ttl == 0 || decide (er.ts - v.ttl ≤ s.eventTs)) &&
  (v.entities.map (fun c => getVal s.keys c) == er.keys)

/-- Inner join of one source row against the per-view entity dataframe. -/
def joinToEntities (v : FeatureView) (ers : List ViewEntityRow) (s : SourceRow) :
    List BaseRow :=
  ers.filterMap (fun er =>
    if baseJoinCond v s er then
      some ⟨s.eventTs, s.createdTs, v.entities.map (fun c => getVal s.keys c),
            s.features, er.ts, er.uid⟩
    else none)

/-- The `{{featureview.name}}__base` CTE as written: the prefiltered
`__subquery` joined to the per-view entity dataframe. -/
def base (v : FeatureView) (es : List EntityRow) (srcs : List SourceRow) :
    List BaseRow :=
  (subquery v es srcs).flatMap (joinToEntities v (viewEntityDf v es))

/-- The same join with the `__subquery` prefilter removed: all source rows
are offered directly to the exact per-row join condition. -/
def baseNoPrefilter (v : FeatureView) (es : List EntityRow)
    (srcs : List SourceRow) : List BaseRow :=
  srcs.flatMap (joinToEntities v (viewEntityDf v es))

/-- `MAX(created_timestamp)` of the `__dedup` CTE for one
`(entity_row_unique_id, event_timestamp)` group of a base relation. -/
def maxCreatedFor (bs : List BaseRow) (u : String) (t : Nat) : Option Nat :=
  listMax ((bs.filter (fun b => b.uid == u && b.eventTs == t)).map BaseRow.createdTs)

/-- `__base INNER JOIN __dedup ON (uid, event_timestamp, created_timestamp)`
— the base rows whose created timestamp attains the per-group maximum.  When
the view declares no created-timestamp column the `__dedup` CTE is not
emitted and the join is the base relation itself. -/
def dedupJoined (v : FeatureView) (bs : List BaseRow) : List BaseRow :=
  if v.hasCreated then
    bs.filter (fun b => maxCreatedFor bs b.uid b.eventTs == some b.createdTs)
  else bs

/-- A row of the `{{featureview.name}}__latest` CTE. -/
structure LatestRow where
  uid : String
  eventTs : Nat
  createdTs : Option Nat
deriving DecidableEq, Repr

/-- The `__latest` CTE: group the (dedup-joined) base relation by unique id
and take `MAX(event_timestamp)` and, when declared, `MAX(created_timestamp)`
— the two maxima are taken independently over the whole group. -/
def latestOf (v : FeatureView) (bs : List BaseRow) : List LatestRow :=
  ((dedupJoined v bs).map BaseRow.uid).dedup.filterMap (fun u =>
    let grp := (dedupJoined v bs).filter (fun b => b.uid == u)
    match listMax (grp.map BaseRow.eventTs) with
    | none => none
    | some mt =>
        some ⟨u, mt, if v.hasCreated then listMax (grp.map BaseRow.createdTs) else none⟩)

/-- The `__cleaned` CTE: base rows joined back to `__latest` on unique id,
event timestamp and (when declared) created timestamp.  `__latest` holds at
most one row per unique id, so the inner join is a filter of the base. -/
def cleanedOf (v : FeatureView) (bs : List BaseRow) : List BaseRow :=
  bs.filter (fun b =>
    (latestOf v bs).any (fun l =>
      l.uid == b.uid && l.eventTs == b.eventTs &&
      (!v.hasCreated || l.createdTs == some b.createdTs)))

/-- The cleaned per-view result of the plan as written (with prefilter). -/
def cleaned (v : FeatureView) (es : List EntityRow) (srcs : List SourceRow) :
    List BaseRow :=
  cleanedOf v (base v es srcs)

/-- The cleaned per-view result of the plan without the prefilter. -/
def cleanedNoPrefilter (v : FeatureView) (es : List EntityRow)
    (srcs : List SourceRow) : List BaseRow :=
  cleanedOf v (baseNoPrefilter v es srcs)

/-- Output column name of a feature: `{{featureview.name}}__{{feature}}`
when `full_feature_names` is set, the bare feature name otherwise. -/
def outName (ffn : Bool) (v : FeatureView) (f : String) : String :=
  if ffn then v.name ++ "__" ++ f else f

/-- The feature columns a view contributes for an entity row with no match:
all `NULL`. -/
def nullCols (ffn : Bool) (v : FeatureView) : List (String × Option String) :=
  v.features.map (fun f => (outName ffn v f, none))

/-- The feature columns a view contributes from one cleaned row. -/
def featureCols (ffn : Bool) (v : FeatureView) (b : BaseRow) :
    List (String × Option String) :=
  v.features.map (fun f => (outName ffn v f, some (getVal b.features f)))

/-- One `LEFT JOIN ({{featureview.name}}__joined)` of the final `SELECT`:
the lists of feature columns the view contributes for one entity row — the
cleaned rows whose unique id matches, or a single all-`NULL` contribution
when none matches. -/
def viewJoinRows (ffn : Bool) (v : FeatureView) (es : List EntityRow)
    (srcs : List SourceRow) (e : EntityRow) :
    List (List (String × Option String)) :=
  let ms := (cleaned v es srcs).filter (fun b => b.uid == entityRowUniqueId v e)
  if ms.isEmpty then [nullCols ffn v] else ms.map (featureCols ffn v)

/-- Multiplicity of chained `LEFT JOIN`s: the cartesian combination of the
per-view contributions. -/
def crossJoin : List (List (List (String × Option String))) →
    List (List (String × Option String))
  | [] => [[]]
  | g :: gs => g.flatMap (fun x => (crossJoin gs).map (fun rest => x ++ rest))

/-- A row of the final merged output: the originating entity row (its own
columns survive the final projection, the helper columns are dropped by the
regex projection) plus the resolved feature columns of every view. -/
structure OutRow where
  entity : EntityRow
  features : List (String × Option String)
deriving DecidableEq, Repr

/-- The final `SELECT ... FROM entity_dataframe LEFT JOIN ...` of the
template: each entity row, joined with every view's cleaned result on the
view's unique-id column. -/
def finalOutput (ffn : Bool) (views : List (FeatureView × List SourceRow))
    (es : List EntityRow) : List OutRow :=
  es.flatMap (fun e =>
    (crossJoin (views.map (fun vp => viewJoinRows ffn vp.1 es vp.2 e))).map
      (fun fs => ⟨e, fs⟩))

/-! ### Aggregate lemmas -/

theorem le_foldl_max (l : List Nat) (a : Nat) : a ≤ l.foldl max a := by
  induction l generalizing a with
  | nil => simp
  | cons y t ih => exact le_trans (le_max_left a y) (ih (max a y))

theorem foldl_max_mem_le {l : List Nat} {x : Nat} (hx : x ∈ l) (a : Nat) :
    x ≤ l.foldl max a := by
  induction l generalizing a with
  | nil => cases hx
  | cons y t ih =>
    rcases List.mem_cons.mp hx with rfl | h
    · exact le_trans (le_max_right a x) (le_foldl_max t _)
    · exact ih h _

theorem le_of_listMax {l : List Nat} {m x : Nat} (hm : listMax l = some m)
    (hx : x ∈ l) : x ≤ m := by
  cases l with
  | nil => cases hx
  | cons y t =>
    simp only [listMax, Option.some.injEq] at hm
    subst hm
    rcases List.mem_cons.mp hx with rfl | h
    · exact le_foldl_max t x
    · exact foldl_max_mem_le h y

theorem foldl_min_le (l : List Nat) (a : Nat) : l.foldl min a ≤ a := by
  induction l generalizing a with
  | nil => simp
  | cons y t ih => exact le_trans (ih (min a y)) (min_le_left a y)

theorem foldl_min_mem_le {l : List Nat} {x : Nat} (hx : x ∈ l) (a : Nat) :
    l.foldl min a ≤ x := by
  induction l generalizing a with
  | nil => cases hx
  | cons y t ih =>
    rcases List.mem_cons.mp hx with rfl | h
    · exact le_trans (foldl_min_le t _) (min_le_right a x)
    · exact ih h _

theorem listMin_le {l : List Nat} {m x : Nat} (hm : listMin l = some m)
    (hx : x ∈ l) : m ≤ x := by
  cases l with
  | nil => cases hx
  | cons y t =>
    simp only [listMin, Option.some.injEq] at hm
    subst hm
    rcases List.mem_cons.mp hx with rfl | h
    · exact foldl_min_le t x
    · exact foldl_min_mem_le h y

/-! ### Membership lemmas for the pipeline -/

theorem mem_viewEntityDf {v : FeatureView} {es : List EntityRow}
    {er : ViewEntityRow} :
    er ∈ viewEntityDf v es ↔ ∃ e ∈ es, projectEntity v e = er := by
  simp [viewEntityDf, List.mem_dedup, List.mem_map]

theorem mem_joinToEntities {v : FeatureView} {ers : List ViewEntityRow}
    {s : SourceRow} {b : BaseRow} :
    b ∈ joinToEntities v ers s ↔
      ∃ er ∈ ers, baseJoinCond v s er = true ∧
        b = ⟨s.eventTs, s.createdTs, v.entities.map (fun c => getVal s.keys c),
             s.features, er.ts, er.uid⟩ := by
  simp only [joinToEntities, List.mem_filterMap]
  constructor
  · rintro ⟨er, her, hsome⟩
    by_cases hc : baseJoinCond v s er = true
    · rw [if_pos hc] at hsome
      exact ⟨er, her, hc, (Option.some_inj.mp hsome).symm⟩
    · rw [if_neg hc] at hsome
      cases hsome
  · rintro ⟨er, her, hc, rfl⟩
    exact ⟨er, her, by rw [if_pos hc]⟩

theorem subquery_subset {v : FeatureView} {es : List EntityRow}
    {srcs : List SourceRow} {s : SourceRow} (h : s ∈ subquery v es srcs) :
    s ∈ srcs := by
  unfold subquery at h
  rcases hmax : listMax (es.map EntityRow.ts) with _ | maxT <;> rw [hmax] at h
  · cases h
  rcases hmin : listMin (es.map EntityRow.ts) with _ | minT <;> rw [hmin] at h
  · cases h
  exact List.mem_of_mem_filter h

theorem cleanedOf_subset {v : FeatureView} {bs : List BaseRow} {b : BaseRow}
    (h : b ∈ cleanedOf v bs) : b ∈ bs :=
  List.mem_of_mem_filter h

/-! ### C5: the prefilter is an optimization only -/

theorem flatMap_filter_of_empty {α β : Type} (p : α → Bool) (f : α → List β) :
    ∀ l : List α, (∀ a ∈ l, f a ≠ [] → p a = true) →
    (l.filter p).flatMap f = l.flatMap f := by
  intro l
  induction l with
  | nil => intro _; rfl
  | cons a t ih =>
    intro h
    by_cases hp : p a = true
    · rw [List.filter_cons, if_pos hp, List.flatMap_cons, List.flatMap_cons,
        ih (fun x hx hne => h x (List.mem_cons_of_mem _ hx) hne)]
    · have hfa : f a = [] := by
        by_contra hne
        exact hp (h a (List.mem_cons_self a t) hne)
      rw [List.filter_cons, if_neg hp, List.flatMap_cons, hfa, List.nil_append,
        ih (fun x hx hne => h x (List.mem_cons_of_mem _ hx) hne)]

theorem joinToEntities_ne_nil {v : FeatureView} {ers : List ViewEntityRow}
    {s : SourceRow} (h : joinToEntities v ers s ≠ []) :
    ∃ er ∈ ers, baseJoinCond v s er = true := by
  unfold joinToEntities at h
  rw [Ne, List.filterMap_eq_nil_iff] at h
  push_neg at h
  obtain ⟨er, her, hne⟩ := h
  refine ⟨er, her, ?_⟩
  by_contra hc
  exact hne (by rw [if_neg hc])

theorem viewEntityDf_ts_mem {v : FeatureView} {es : List EntityRow}
    {er : ViewEntityRow} (h : er ∈ viewEntityDf v es) :
    er.ts ∈ es.map EntityRow.ts := by
  obtain ⟨e, he, rfl⟩ := mem_viewEntityDf.mp h
  exact List.mem_map.mpr ⟨e, he, rfl⟩

theorem prefilterKeeps_of_cond {v : FeatureView} {es : List EntityRow}
    {maxT minT : Nat} {s : SourceRow} {er : ViewEntityRow}
    (hmax : listMax (es.map EntityRow.ts) = some maxT)
    (hmin : listMin (es.map EntityRow.ts) = some minT)
    (her : er ∈ viewEntityDf v es) (hc : baseJoinCond v s er = true) :
    prefilterKeeps v maxT minT s = true := by
  have hts := viewEntityDf_ts_mem her
  simp only [baseJoinCond, Bool.and_eq_true, Bool.or_eq_true, decide_eq_true_eq,
    beq_iff_eq] at hc
  obtain ⟨⟨h1, h2⟩, _⟩ := hc
  simp only [prefilterKeeps, Bool.and_eq_true, Bool.or_eq_true, decide_eq_true_eq,
    beq_iff_eq]
  refine ⟨le_trans h1 (le_of_listMax hmax hts), ?_⟩
  rcases h2 with h0 | hge
  · exact Or.inl h0
  · exact Or.inr (le_trans (Nat.sub_le_sub_right (listMin_le hmin hts) v.ttl) hge)

theorem base_eq_baseNoPrefilter (v : FeatureView) (es : List EntityRow)
    (srcs : List SourceRow) : base v es srcs = baseNoPrefilter v es srcs := by
  cases es with
  | nil =>
    have hj : ∀ s, joinToEntities v (viewEntityDf v []) s = [] := fun _ => rfl
    unfold base baseNoPrefilter subquery
    simp [listMax, listMin, hj, List.flatMap]
  | cons e rest =>
    have hmax : listMax ((e :: rest).map EntityRow.ts) =
        some ((rest.map EntityRow.ts).foldl max e.ts) := rfl
    have hmin : listMin ((e :: rest).map EntityRow.ts) =
        some ((rest.map EntityRow.ts).foldl min e.ts) := rfl
    unfold base baseNoPrefilter subquery
    rw [hmax, hmin]
    apply flatMap_filter_of_empty
    intro s _ hne
    obtain ⟨er, her, hc⟩ := joinToEntities_ne_nil hne
    exact prefilterKeeps_of_cond hmax hmin her hc

/-- C5: the global prefilter of the `__subquery` CTE keeps every source row
that satisfies the exact per-row join condition for at least one entity row,
and the plan with the prefilter produces the same `__base` and the same
cleaned per-view result as the plan without it. -/
theorem prefilter_is_optimization_only (v : FeatureView) (es : List EntityRow)
    (srcs : List SourceRow) :
    (∀ s ∈ srcs, (∃ er ∈ viewEntityDf v es, baseJoinCond v s er = true) →
        s ∈ subquery v es srcs) ∧
    base v es srcs = baseNoPrefilter v es srcs ∧
    cleaned v es srcs = cleanedNoPrefilter v es srcs := by
  refine ⟨?_, base_eq_baseNoPrefilter v es srcs, ?_⟩
  · rintro s hs ⟨er, her, hc⟩
    cases es with
    | nil => cases (List.not_mem_nil er) (by simp [viewEntityDf] at her)
    | cons e rest =>
      have hmax : listMax ((e :: rest).map EntityRow.ts) =
          some ((rest.map EntityRow.ts).foldl max e.ts) := rfl
      have hmin : listMin ((e :: rest).map EntityRow.ts) =
          some ((rest.map EntityRow.ts).foldl min e.ts) := rfl
      unfold subquery
      rw [hmax, hmin]
      exact List.mem_filter.mpr ⟨hs, prefilterKeeps_of_cond hmax hmin her hc⟩
  · unfold cleaned cleanedNoPrefilter
    rw [base_eq_baseNoPrefilter]

/-! ### Provenance of output feature values (towards C1/C2) -/

/-- Collision-freedom of the unique-id column over an entity dataframe: the
invariant the spec postulates for `EntityRowUniqueId`. -/
def UidInjective (v : FeatureView) (es : List EntityRow) : Prop :=
  ∀ e1 ∈ es, ∀ e2 ∈ es,
    entityRowUniqueId v e1 = entityRowUniqueId v e2 → e1 = e2

instance (v : FeatureView) (es : List EntityRow) :
    Decidable (UidInjective v es) := by
  unfold UidInjective
  infer_instance

/-- The exact window/key condition a source row must satisfy against an
entity row for the view's range join. -/
def windowMatch (v : FeatureView) (s : SourceRow) (e : EntityRow) : Prop :=
  s.eventTs ≤ e.ts ∧ (v.ttl = 0 ∨ e.ts - v.ttl ≤ s.eventTs) ∧
    v.entities.map (fun c => getVal s.keys c) =
      v.entities.map (fun c => getVal e.keys c)

instance (v : FeatureView) (s : SourceRow) (e : EntityRow) :
    Decidable (windowMatch v s e) := by
  unfold windowMatch
  infer_instance

theorem mem_base_elim {v : FeatureView} {es : List EntityRow}
    {srcs : List SourceRow} {b : BaseRow} (h : b ∈ base v es srcs) :
    ∃ s ∈ srcs, ∃ e ∈ es, windowMatch v s e ∧
      b.eventTs = s.eventTs ∧ b.createdTs = s.createdTs ∧
      b.features = s.features ∧ b.entityTs = e.ts ∧
      b.uid = entityRowUniqueId v e := by
  obtain ⟨s, hs, hb⟩ := List.mem_flatMap.mp h
  obtain ⟨er, her, hc, rfl⟩ := mem_joinToEntities.mp hb
  obtain ⟨e, he, rfl⟩ := mem_viewEntityDf.mp her
  simp only [baseJoinCond, Bool.and_eq_true, Bool.or_eq_true, decide_eq_true_eq,
    beq_iff_eq, projectEntity] at hc
  exact ⟨s, subquery_subset hs, e, he,
    ⟨hc.1.1, hc.1.2, hc.2⟩, rfl, rfl, rfl, rfl, rfl⟩

theorem viewJoinRows_sound {ffn : Bool} {v : FeatureView} {es : List EntityRow}
    {srcs : List SourceRow} {e : EntityRow} (he : e ∈ es)
    (hinj : UidInjective v es) {block : List (String × Option String)}
    (hb : block ∈ viewJoinRows ffn v es srcs e)
    {nm : String} {ov : Option String} (hp : (nm, ov) ∈ block) :
    ∃ f ∈ v.features, nm = outName ffn v f ∧
      (ov = none ∨ ∃ s ∈ srcs, windowMatch v s e ∧
        ov = some (getVal s.features f)) := by
  simp only [viewJoinRows] at hb
  split at hb
  · rw [List.mem_singleton] at hb
    subst hb
    obtain ⟨f, hf, hfe⟩ := List.mem_map.mp hp
    obtain ⟨h1, h2⟩ := Prod.mk.injEq .. ▸ hfe
    exact ⟨f, hf, h1.symm, Or.inl h2.symm⟩
  · obtain ⟨b, hbm, hfe⟩ := List.mem_map.mp hb
    rw [List.mem_filter] at hbm
    obtain ⟨hbcl, huid⟩ := hbm
    obtain ⟨s, hs, e', he', hw, heq1, _, heq3, _, huid'⟩ :=
      mem_base_elim (cleanedOf_subset hbcl)
    have hee : e' = e := by
      apply hinj e' he' e he
      rw [← huid']
      exact beq_iff_eq.mp huid
    subst hee
    subst hfe
    obtain ⟨f, hf, hfe⟩ := List.mem_map.mp hp
    obtain ⟨h1, h2⟩ := Prod.mk.injEq .. ▸ hfe
    refine ⟨f, hf, h1.symm, Or.inr ⟨s, hs, hw, ?_⟩⟩
    rw [← h2, heq3]

theorem viewJoinRows_null_of_no_match {ffn : Bool} {v : FeatureView}
    {es : List EntityRow} {srcs : List SourceRow} {e : EntityRow} (he : e ∈ es)
    (hinj : UidInjective v es) (hno : ∀ s ∈ srcs, ¬ windowMatch v s e) :
    viewJoinRows ffn v es srcs e = [nullCols ffn v] := by
  unfold viewJoinRows
  have hms : (cleaned v es srcs).filter
      (fun b => b.uid == entityRowUniqueId v e) = [] := by
    rw [List.filter_eq_nil_iff]
    intro b hb hbe
    obtain ⟨s, hs, e', he', hw, _, _, _, _, huid'⟩ :=
      mem_base_elim (cleanedOf_subset hb)
    have hee : e' = e := by
      apply hinj e' he' e he
      rw [← huid']
      exact beq_iff_eq.mp hbe
    exact hno s hs (hee ▸ hw)
  rw [hms]
  rfl

theorem crossJoin_mem_elim {gs : List (List (List (String × Option String)))}
    {fs : List (String × Option String)} (h : fs ∈ crossJoin gs)
    {p : String × Option String} (hp : p ∈ fs) :
    ∃ g ∈ gs, ∃ x ∈ g, p ∈ x := by
  induction gs generalizing fs with
  | nil =>
    rw [crossJoin, List.mem_singleton] at h
    subst h
    cases hp
  | cons g rest ih =>
    rw [crossJoin, List.mem_flatMap] at h
    obtain ⟨x, hx, hmem⟩ := h
    obtain ⟨fs', hfs', rfl⟩ := List.mem_map.mp hmem
    rcases List.mem_append.mp hp with h1 | h2
    · exact ⟨g, List.mem_cons_self g rest, x, hx, h1⟩
    · obtain ⟨g', hg', x', hx', hp'⟩ := ih hfs' h2
      exact ⟨g', List.mem_cons_of_mem _ hg', x', hx', hp'⟩

theorem crossJoin_block {gs : List (List (List (String × Option String)))}
    {fs : List (String × Option String)} (h : fs ∈ crossJoin gs) :
    ∀ g ∈ gs, ∃ x ∈ g, ∀ p ∈ x, p ∈ fs := by
  induction gs generalizing fs with
  | nil => intro g hg; cases hg
  | cons g0 rest ih =>
    rw [crossJoin, List.mem_flatMap] at h
    obtain ⟨x, hx, hmem⟩ := h
    obtain ⟨fs', hfs', rfl⟩ := List.mem_map.mp hmem
    intro g hg
    rcases List.mem_cons.mp hg with rfl | hg'
    · exact ⟨x, hx, fun p hp => List.mem_append.mpr (Or.inl hp)⟩
    · obtain ⟨x', hx', hsub⟩ := ih hfs' g hg'
      exact ⟨x', hx', fun p hp => List.mem_append.mpr (Or.inr (hsub p hp))⟩

theorem mem_finalOutput_elim {ffn : Bool}
    {views : List (FeatureView × List SourceRow)} {es : List EntityRow}
    {o : OutRow} (h : o ∈ finalOutput ffn views es) :
    o.entity ∈ es ∧ o.features ∈ crossJoin
      (views.map (fun vp => viewJoinRows ffn vp.1 es vp.2 o.entity)) := by
  obtain ⟨e, he, hmem⟩ := List.mem_flatMap.mp h
  obtain ⟨fs, hfs, rfl⟩ := List.mem_map.mp hmem
  exact ⟨he, hfs⟩

theorem output_entry_provenance {ffn : Bool}
    {views : List (FeatureView × List SourceRow)} {es : List EntityRow}
    (hinj : ∀ vp ∈ views, UidInjective vp.1 es) {o : OutRow}
    (ho : o ∈ finalOutput ffn views es) {nm : String} {ov : Option String}
    (hp : (nm, ov) ∈ o.features) :
    ∃ vp ∈ views, ∃ f ∈ vp.1.features, nm = outName ffn vp.1 f ∧
      (ov = none ∨ ∃ s ∈ vp.2, windowMatch vp.1 s o.entity ∧
        ov = some (getVal s.features f)) := by
  obtain ⟨he, hcj⟩ := mem_finalOutput_elim ho
  obtain ⟨g, hg, x, hx, hpx⟩ := crossJoin_mem_elim hcj hp
  obtain ⟨vp, hvp, rfl⟩ := List.mem_map.mp hg
  obtain ⟨f, hf, h1, h2⟩ := viewJoinRows_sound he (hinj vp hvp) hx hpx
  exact ⟨vp, hvp, f, hf, h1, h2⟩

/-! ### C1: no leakage -/

/-- C1 (amended): provided the `EntityRowUniqueId`s are collision-free over
the entity dataframe for every view, every feature value attached to an
output row comes from a source row of its view that matches the row's entity
keys and whose event timestamp is at or before the row's entity event
timestamp; in particular no later source row ever contributes. -/
theorem no_leakage_of_uid_injective (ffn : Bool)
    (views : List (FeatureView × List SourceRow)) (es : List EntityRow)
    (hinj : ∀ vp ∈ views, UidInjective vp.1 es) :
    ∀ o ∈ finalOutput ffn views es, ∀ nm x, (nm, some x) ∈ o.features →
      ∃ vp ∈ views, ∃ f ∈ vp.1.features, nm = outName ffn vp.1 f ∧
        ∃ s ∈ vp.2, s.eventTs ≤ o.entity.ts ∧
          vp.1.entities.map (fun c => getVal s.keys c) =
            vp.1.entities.map (fun c => getVal o.entity.keys c) ∧
          x = getVal s.features f := by
  intro o ho nm x hp
  obtain ⟨vp, hvp, f, hf, h1, h2⟩ := output_entry_provenance hinj ho hp
  rcases h2 with h | ⟨s, hs, hw, hval⟩
  · exact absurd h (Option.some_ne_none x)
  · exact ⟨vp, hvp, f, hf, h1, s, hs, hw.1, hw.2.2, Option.some_inj.mp hval⟩

/-- Fixture for the C1 counterexample: the ids of the two entity rows
collide (`"1" ++ "23" = "12" ++ "3"`). -/
def cx1View : FeatureView := ⟨"fv", ["k"], ["val"], 0, false⟩

def cx1Es : List EntityRow := [⟨[("k", "1")], 23⟩, ⟨[("k", "12")], 3⟩]

def cx1Srcs : List SourceRow := [⟨[("k", "1")], 20, 0, [("val", "X")]⟩]

/-- C1 counterexample: the output row for the entity `(k = "12", ts = 3)`
carries the feature value `"X"`, yet the only source row of the view has
event timestamp `20 > 3`: a source row after the entity event contributed. -/
theorem no_leakage_counterexample :
    (⟨⟨[("k", "12")], 3⟩, [("val", some "X")]⟩ : OutRow) ∈
      finalOutput false [(cx1View, cx1Srcs)] cx1Es ∧
    ∀ s ∈ cx1Srcs, 3 < s.eventTs := by decide

/-- Fixture for the C1/C2/C8 witnesses: one view, one entity row, one
matching in-window source row. -/
def w1View : FeatureView := ⟨"fv", ["k"], ["val"], 0, false⟩

def w1Es : List EntityRow := [⟨[("k", "a")], 10⟩]

def w1Srcs : List SourceRow := [⟨[("k", "a")], 7, 0, [("val", "42")]⟩]

theorem no_leakage_witness :
    (∀ vp ∈ [(w1View, w1Srcs)], UidInjective vp.1 w1Es) ∧
    ∀ o ∈ finalOutput false [(w1View, w1Srcs)] w1Es, ∀ nm x,
      (nm, some x) ∈ o.features →
      ∃ vp ∈ [(w1View, w1Srcs)], ∃ f ∈ vp.1.features, nm = outName false vp.1 f ∧
        ∃ s ∈ vp.2, s.eventTs ≤ o.entity.ts ∧
          vp.1.entities.map (fun c => getVal s.keys c) =
            vp.1.entities.map (fun c => getVal o.entity.keys c) ∧
          x = getVal s.features f :=
  ⟨by decide, no_leakage_of_uid_injective false [(w1View, w1Srcs)] w1Es (by decide)⟩

/-! ### C2: TTL exclusion -/

/-- C2 (amended): provided the `EntityRowUniqueId`s are collision-free over
the entity dataframe for every view, every feature value attached to an
output row comes from a source row of its view whose event timestamp is at
least the row's entity event timestamp minus the view's TTL (when the TTL is
non-zero), and an entity row for which no source row satisfies the window and
key condition carries null for that view's feature columns rather than
failing. -/
theorem ttl_exclusion_of_uid_injective (ffn : Bool)
    (views : List (FeatureView × List SourceRow)) (es : List EntityRow)
    (hinj : ∀ vp ∈ views, UidInjective vp.1 es) :
    (∀ o ∈ finalOutput ffn views es, ∀ nm x, (nm, some x) ∈ o.features →
      ∃ vp ∈ views, ∃ f ∈ vp.1.features, nm = outName ffn vp.1 f ∧
        ∃ s ∈ vp.2, (vp.1.ttl = 0 ∨ o.entity.ts - vp.1.ttl ≤ s.eventTs) ∧
          x = getVal s.features f) ∧
    (∀ o ∈ finalOutput ffn views es, ∀ vp ∈ views,
      (∀ s ∈ vp.2, ¬ windowMatch vp.1 s o.entity) →
      ∀ f ∈ vp.1.features, (outName ffn vp.1 f, none) ∈ o.features) := by
  constructor
  · intro o ho nm x hp
    obtain ⟨vp, hvp, f, hf, h1, h2⟩ := output_entry_provenance hinj ho hp
    rcases h2 with h | ⟨s, hs, hw, hval⟩
    · exact absurd h (Option.some_ne_none x)
    · exact ⟨vp, hvp, f, hf, h1, s, hs, hw.2.1, Option.some_inj.mp hval⟩
  · intro o ho vp hvp hno f hf
    obtain ⟨he, hcj⟩ := mem_finalOutput_elim ho
    have hg : viewJoinRows ffn vp.1 es vp.2 o.entity ∈
        views.map (fun vq => viewJoinRows ffn vq.1 es vq.2 o.entity) :=
      List.mem_map.mpr ⟨vp, hvp, rfl⟩
    obtain ⟨x, hx, hsub⟩ := crossJoin_block hcj _ hg
    rw [viewJoinRows_null_of_no_match he (hinj vp hvp) hno,
      List.mem_singleton] at hx
    subst hx
    exact hsub _ (List.mem_map.mpr ⟨f, hf, rfl⟩)

/-- Fixture for the C2 counterexample: colliding ids again, now with a TTL
of 5 seconds. -/
def cx2View : FeatureView := ⟨"fv", ["k"], ["val"], 5, false⟩

def cx2Es : List EntityRow := [⟨[("k", "12")], 3⟩, ⟨[("k", "1")], 23⟩]

def cx2Srcs : List SourceRow := [⟨[("k", "12")], 1, 0, [("val", "x")]⟩]

/-- C2 counterexample: the view's TTL is 5, the output row for the entity
`(k = "1", ts = 23)` carries the feature value `"x"`, yet the only source
row has event timestamp `1 < 23 - 5`: a source row older than the TTL window
contributed. -/
theorem ttl_exclusion_counterexample :
    cx2View.ttl ≠ 0 ∧
    (⟨⟨[("k", "1")], 23⟩, [("val", some "x")]⟩ : OutRow) ∈
      finalOutput false [(cx2View, cx2Srcs)] cx2Es ∧
    ∀ s ∈ cx2Srcs, s.eventTs < 23 - cx2View.ttl := by decide

/-- Fixture for the C2 witness: a TTL view with one in-window match for the
first entity row and no candidate at all for the second. -/
def w2View : FeatureView := ⟨"fv", ["k"], ["val"], 5, false⟩

def w2Es : List EntityRow := [⟨[("k", "a")], 10⟩, ⟨[("k", "b")], 10⟩]

def w2Srcs : List SourceRow := [⟨[("k", "a")], 7, 0, [("val", "42")]⟩]

theorem ttl_exclusion_witness :
    (∀ vp ∈ [(w2View, w2Srcs)], UidInjective vp.1 w2Es) ∧
    ((∀ o ∈ finalOutput false [(w2View, w2Srcs)] w2Es, ∀ nm x,
        (nm, some x) ∈ o.features →
        ∃ vp ∈ [(w2View, w2Srcs)], ∃ f ∈ vp.1.features,
          nm = outName false vp.1 f ∧
          ∃ s ∈ vp.2, (vp.1.ttl = 0 ∨ o.entity.ts - vp.1.ttl ≤ s.eventTs) ∧
            x = getVal s.features f) ∧
      (∀ o ∈ finalOutput false [(w2View, w2Srcs)] w2Es,
        ∀ vp ∈ [(w2View, w2Srcs)],
        (∀ s ∈ vp.2, ¬ windowMatch vp.1 s o.entity) →
        ∀ f ∈ vp.1.features, (outName false vp.1 f, none) ∈ o.features)) :=
  ⟨by decide,
    ttl_exclusion_of_uid_injective false [(w2View, w2Srcs)] w2Es (by decide)⟩

/-! ### C3: latest selection -/

/-- Fixture exhibiting the `__latest` defect: for the single entity row the
base has two candidates, `(eventTs 2, createdTs 1)` and
`(eventTs 1, createdTs 5)`; `__latest` takes the two maxima independently,
asking for `(eventTs 2, createdTs 5)`, which no base row has. -/
def bugView : FeatureView := ⟨"fv", ["k"], ["val"], 0, true⟩

def bugEs : List EntityRow := [⟨[("k", "a")], 10⟩]

def bugSrcs : List SourceRow :=
  [⟨[("k", "a")], 2, 1, [("val", "x")]⟩, ⟨[("k", "a")], 1, 5, [("val", "y")]⟩]

/-- C3: at this input the entity row's unique id has two candidate rows
satisfying the join condition, yet `__cleaned` selects no row at all — the
`MAX(event_timestamp)` row is dropped because its created timestamp is not
the group-wide `MAX(created_timestamp)` — and the final output carries null
instead of the feature value `"x"` of the latest candidate. -/
theorem latest_selection_drops_all_candidates :
    (base bugView bugEs bugSrcs).length = 2 ∧
    cleaned bugView bugEs bugSrcs = [] ∧
    finalOutput false [(bugView, bugSrcs)] bugEs =
      [⟨⟨[("k", "a")], 10⟩, [("val", none)]⟩] := by decide

/-! ### C4: left-join completeness -/

theorem crossJoin_length_one {gs : List (List (List (String × Option String)))}
    (h : ∀ g ∈ gs, g.length = 1) : (crossJoin gs).length = 1 := by
  induction gs with
  | nil => rfl
  | cons g rest ih =>
    obtain ⟨x, rfl⟩ := List.length_eq_one.mp (h g (List.mem_cons_self g rest))
    rw [crossJoin]
    simp only [List.flatMap_cons, List.flatMap_nil, List.append_nil,
      List.length_map]
    exact ih (fun g' hg' => h g' (List.mem_cons_of_mem _ hg'))

theorem viewJoinRows_length_one {ffn : Bool} {v : FeatureView}
    {es : List EntityRow} {srcs : List SourceRow} {e : EntityRow}
    (h : ((cleaned v es srcs).filter
      (fun b => b.uid == entityRowUniqueId v e)).length ≤ 1) :
    (viewJoinRows ffn v es srcs e).length = 1 := by
  simp only [viewJoinRows]
  split
  · rfl
  · rename_i hne
    rw [List.length_map]
    have hpos : 0 < ((cleaned v es srcs).filter
        (fun b => b.uid == entityRowUniqueId v e)).length := by
      rw [List.length_pos]
      intro hnil
      exact hne (by rw [hnil]; rfl)
    omega

theorem viewJoinRows_eq_null_of_filter_nil {ffn : Bool} {v : FeatureView}
    {es : List EntityRow} {srcs : List SourceRow} {e : EntityRow}
    (h : ∀ b ∈ cleaned v es srcs, b.uid ≠ entityRowUniqueId v e) :
    viewJoinRows ffn v es srcs e = [nullCols ffn v] := by
  simp only [viewJoinRows]
  have hnil : (cleaned v es srcs).filter
      (fun b => b.uid == entityRowUniqueId v e) = [] := by
    rw [List.filter_eq_nil_iff]
    intro b hb
    simpa [beq_iff_eq] using h b hb
  rw [hnil]
  rfl

theorem countP_flatMap_sum {α β : Type} (f : α → List β) (p : β → Bool) :
    ∀ l : List α, (l.flatMap f).countP p = (l.map (fun a => (f a).countP p)).sum := by
  intro l
  induction l with
  | nil => rfl
  | cons a t ih =>
    rw [List.flatMap_cons, List.countP_append, ih, List.map_cons, List.sum_cons]

theorem countP_entity_map (e' e : EntityRow)
    (X : List (List (String × Option String))) :
    ((X.map (fun fs => (⟨e', fs⟩ : OutRow))).countP (fun o => o.entity == e)) =
      if e' = e then X.length else 0 := by
  rw [List.countP_map]
  by_cases h : e' = e
  · subst h
    rw [if_pos rfl]
    simp [Function.comp]
  · rw [if_neg h]
    have : ∀ fs ∈ X, ¬ ((fun o : OutRow => o.entity == e)
        ((fun fs => (⟨e', fs⟩ : OutRow)) fs) = true) := by
      intro fs _ hc
      exact h (beq_iff_eq.mp hc)
    simpa using List.countP_eq_zero.mpr this

theorem sum_if_countP (l : List EntityRow) (e : EntityRow) (c : Nat) :
    (l.map (fun a => if a = e then c else 0)).sum =
      l.countP (fun a => a == e) * c := by
  induction l with
  | nil => rw [List.map_nil, List.sum_nil, List.countP_nil, Nat.zero_mul]
  | cons a t ih =>
    rw [List.map_cons, List.sum_cons, ih, List.countP_cons]
    by_cases h : a = e
    · rw [if_pos h, if_pos (by simp [h]), Nat.add_mul, Nat.one_mul, Nat.add_comm]
    · rw [if_neg h, if_neg (by simp [h]), Nat.add_zero, Nat.zero_add]

/-- C4 (amended): an entity row occurring once in the entity dataframe, with
no matching cleaned row in view `v`, appears in the final output exactly
once — provided every view's cleaned result matches the row's unique id at
most once — and that output row carries null for all of `v`'s feature
columns while each other view contributes exactly one of its own
contribution blocks, unaffected by `v`. -/
theorem left_join_completeness_of_unique (ffn : Bool)
    (views : List (FeatureView × List SourceRow)) (es : List EntityRow)
    (v : FeatureView) (srcs : List SourceRow) (e : EntityRow)
    (hmem : (v, srcs) ∈ views)
    (hcount : es.countP (fun e' => e' == e) = 1)
    (hnoV : ∀ b ∈ cleaned v es srcs, b.uid ≠ entityRowUniqueId v e)
    (huniq : ∀ vp ∈ views,
      ((cleaned vp.1 es vp.2).countP
        (fun b => b.uid == entityRowUniqueId vp.1 e)) ≤ 1) :
    ((finalOutput ffn views es).countP (fun o => o.entity == e)) = 1 ∧
    ∀ o ∈ finalOutput ffn views es, o.entity = e →
      (∀ f ∈ v.features, (outName ffn v f, none) ∈ o.features) ∧
      ∀ vp ∈ views, ∃ block ∈ viewJoinRows ffn vp.1 es vp.2 e,
        ∀ p ∈ block, p ∈ o.features := by
  have hlen : ∀ vp ∈ views, (viewJoinRows ffn vp.1 es vp.2 e).length = 1 := by
    intro vp hvp
    apply viewJoinRows_length_one
    rw [← List.countP_eq_length_filter]
    exact huniq vp hvp
  constructor
  · unfold finalOutput
    rw [countP_flatMap_sum]
    have hmapeq : (es.map (fun e' =>
        ((crossJoin (views.map (fun vp => viewJoinRows ffn vp.1 es vp.2 e'))).map
          (fun fs => (⟨e', fs⟩ : OutRow))).countP (fun o => o.entity == e))) =
        es.map (fun e' => if e' = e then 1 else 0) := by
      apply List.map_congr_left
      intro e' _
      rw [countP_entity_map]
      by_cases h : e' = e
      · subst h
        rw [if_pos rfl, if_pos rfl]
        apply crossJoin_length_one
        intro g hg
        obtain ⟨vp, hvp, rfl⟩ := List.mem_map.mp hg
        exact hlen vp hvp
      · rw [if_neg h, if_neg h]
    rw [hmapeq, sum_if_countP, hcount, Nat.one_mul]
  · intro o ho hoe
    obtain ⟨_, hcj⟩ := mem_finalOutput_elim ho
    rw [hoe] at hcj
    constructor
    · intro f hf
      have hg : viewJoinRows ffn v es srcs e ∈
          views.map (fun vq => viewJoinRows ffn vq.1 es vq.2 e) :=
        List.mem_map.mpr ⟨(v, srcs), hmem, rfl⟩
      obtain ⟨x, hx, hsub⟩ := crossJoin_block hcj _ hg
      rw [viewJoinRows_eq_null_of_filter_nil hnoV, List.mem_singleton] at hx
      subst hx
      exact hsub _ (List.mem_map.mpr ⟨f, hf, rfl⟩)
    · intro vp hvp
      exact crossJoin_block hcj _ (List.mem_map.mpr ⟨vp, hvp, rfl⟩)

/-- Fixture for the C4 counterexample: view `b` holds two source rows tying
on event timestamp (no created-timestamp column), view `a` has no rows. -/
def cx4ViewA : FeatureView := ⟨"a", ["k"], ["av"], 0, false⟩

def cx4ViewB : FeatureView := ⟨"b", ["k"], ["bv"], 0, false⟩

def cx4Es : List EntityRow := [⟨[("k", "x")], 5⟩]

def cx4SrcsB : List SourceRow :=
  [⟨[("k", "x")], 1, 0, [("bv", "p")]⟩, ⟨[("k", "x")], 1, 0, [("bv", "q")]⟩]

/-- C4 counterexample: the entity row has no matching row in view `a`, yet
it appears twice in the final output (view `b` resolved two tied cleaned
rows), not exactly once as the claim states. -/
theorem left_join_counterexample :
    (∀ s ∈ ([] : List SourceRow), ¬ windowMatch cx4ViewA s ⟨[("k", "x")], 5⟩) ∧
    ((finalOutput false [(cx4ViewA, []), (cx4ViewB, cx4SrcsB)] cx4Es).countP
      (fun o => o.entity == ⟨[("k", "x")], 5⟩)) = 2 := by decide

/-- Fixture for the C4 witness: view `a` with no source rows, view `b` with
one matching row. -/
def w4ViewA : FeatureView := ⟨"a", ["k"], ["av"], 0, false⟩

def w4ViewB : FeatureView := ⟨"b", ["k"], ["bv"], 0, false⟩

def w4E : EntityRow := ⟨[("k", "x")], 5⟩

def w4SrcsB : List SourceRow := [⟨[("k", "x")], 1, 0, [("bv", "p")]⟩]

theorem left_join_witness :
    ((w4ViewA, ([] : List SourceRow)) ∈ [(w4ViewA, []), (w4ViewB, w4SrcsB)] ∧
     [w4E].countP (fun e' => e' == w4E) = 1 ∧
     (∀ b ∈ cleaned w4ViewA [w4E] [], b.uid ≠ entityRowUniqueId w4ViewA w4E) ∧
     (∀ vp ∈ [(w4ViewA, ([] : List SourceRow)), (w4ViewB, w4SrcsB)],
       ((cleaned vp.1 [w4E] vp.2).countP
         (fun b => b.uid == entityRowUniqueId vp.1 w4E)) ≤ 1)) ∧
    ((finalOutput false [(w4ViewA, []), (w4ViewB, w4SrcsB)] [w4E]).countP
      (fun o => o.entity == w4E)) = 1 ∧
    ∀ o ∈ finalOutput false [(w4ViewA, []), (w4ViewB, w4SrcsB)] [w4E],
      o.entity = w4E →
      (∀ f ∈ w4ViewA.features, (outName false w4ViewA f, none) ∈ o.features) ∧
      ∀ vp ∈ [(w4ViewA, ([] : List SourceRow)), (w4ViewB, w4SrcsB)],
        ∃ block ∈ viewJoinRows false vp.1 [w4E] vp.2 w4E,
          ∀ p ∈ block, p ∈ o.features :=
  ⟨⟨by decide, by decide, by decide, by decide⟩,
    left_join_completeness_of_unique false [(w4ViewA, []), (w4ViewB, w4SrcsB)]
      [w4E] w4ViewA [] w4E (by decide) (by decide) (by decide) (by decide)⟩

/-! ### C6: uniqueness of the EntityRowUniqueId

The id is a separator-free concatenation, so it is not injective in
general; it is injective once the string forms of corresponding entity key
values have equal lengths.  The development below establishes that the
decimal rendering of the timestamp (`Nat.repr`) is injective. -/

/-- Numeric value of a decimal digit character. -/
def digitVal (c : Char) : Nat := c.toNat - 48

/-- Value of a big-endian list of decimal digit characters. -/
def valOfDigits : List Char → Nat
  | [] => 0
  | c :: cs => digitVal c * 10 ^ cs.length + valOfDigits cs

theorem digitVal_digitChar {m : Nat} (h : m < 10) :
    digitVal (Nat.digitChar m) = m := by
  interval_cases m <;> rfl

theorem valOfDigits_toDigitsCore :
    ∀ (fuel n : Nat) (ds : List Char), n < fuel →
      valOfDigits (Nat.toDigitsCore 10 fuel n ds) =
        n * 10 ^ ds.length + valOfDigits ds := by
  intro fuel
  induction fuel with
  | zero => intro n ds h; exact absurd h (Nat.not_lt_zero n)
  | succ fuel ih =>
    intro n ds h
    simp only [Nat.toDigitsCore]
    by_cases h0 : n / 10 = 0
    · rw [if_pos h0]
      have hn : n < 10 := by omega
      show digitVal (Nat.digitChar (n % 10)) * 10 ^ ds.length + valOfDigits ds
          = n * 10 ^ ds.length + valOfDigits ds
      rw [digitVal_digitChar (Nat.mod_lt n (by norm_num)),
        Nat.mod_eq_of_lt hn]
    · rw [if_neg h0]
      have hfuel : n / 10 < fuel := by
        have h1 : 0 < n := by
          rcases Nat.eq_zero_or_pos n with rfl | h1
          · exact absurd rfl h0
          · exact h1
        have := Nat.div_lt_self h1 (by norm_num : (1:Nat) < 10)
        omega
      rw [ih (n / 10) (Nat.digitChar (n % 10) :: ds) hfuel]
      show n / 10 * 10 ^ (ds.length + 1) +
          (digitVal (Nat.digitChar (n % 10)) * 10 ^ ds.length + valOfDigits ds)
          = n * 10 ^ ds.length + valOfDigits ds
      rw [digitVal_digitChar (Nat.mod_lt n (by omega)), pow_succ,
        ← Nat.add_assoc]
      congr 1
      have hdm : n / 10 * 10 + n % 10 = n := by
        have := Nat.div_add_mod n 10
        omega
      calc n / 10 * (10 ^ ds.length * 10) + n % 10 * 10 ^ ds.length
          = (n / 10 * 10 + n % 10) * 10 ^ ds.length := by ring
        _ = n * 10 ^ ds.length := by rw [hdm]

theorem valOfDigits_toDigits (n : Nat) :
    valOfDigits (Nat.toDigits 10 n) = n := by
  unfold Nat.toDigits
  rw [valOfDigits_toDigitsCore (n + 1) n [] (Nat.lt_succ_self n)]
  show n * 10 ^ 0 + 0 = n
  rw [pow_zero, Nat.mul_one, Nat.add_zero]

theorem string_eq_of_data_eq {s t : String} (h : s.data = t.data) : s = t := by
  cases s
  cases t
  exact congrArg String.mk h

theorem nat_repr_inj {m n : Nat} (h : Nat.repr m = Nat.repr n) : m = n := by
  unfold Nat.repr at h
  have hdata : Nat.toDigits 10 m = Nat.toDigits 10 n := by
    have := congrArg String.data h
    simpa [List.asString] using this
  have := congrArg valOfDigits hdata
  rwa [valOfDigits_toDigits, valOfDigits_toDigits] at this

theorem sqlConcat_data :
    ∀ l : List String, (sqlConcat l).data = (l.map String.data).flatten := by
  intro l
  induction l with
  | nil => rfl
  | cons s rest ih =>
    show (s ++ sqlConcat rest).data = _
    rw [String.data_append, ih, List.map_cons, List.flatten_cons]

theorem flatten_snoc_inj :
    ∀ (ks1 ks2 : List (List Char)) (t1 t2 : List Char),
      ks1.map List.length = ks2.map List.length →
      (ks1 ++ [t1]).flatten = (ks2 ++ [t2]).flatten →
      ks1 = ks2 ∧ t1 = t2 := by
  intro ks1
  induction ks1 with
  | nil =>
    intro ks2 t1 t2 hlen hfl
    cases ks2 with
    | nil =>
      refine ⟨rfl, ?_⟩
      simpa [List.flatten] using hfl
    | cons _ _ => cases hlen
  | cons k ks ih =>
    intro ks2 t1 t2 hlen hfl
    cases ks2 with
    | nil => cases hlen
    | cons k2 ks2' =>
      simp only [List.map_cons, List.cons.injEq] at hlen
      obtain ⟨hl, hlen'⟩ := hlen
      simp only [List.cons_append, List.flatten_cons] at hfl
      obtain ⟨hk, hrest⟩ := List.append_inj hfl hl
      obtain ⟨h1, h2⟩ := ih ks2' t1 t2 hlen' hrest
      exact ⟨by rw [hk, h1], h2⟩

/-- C6 (amended): within one view's join scope the `EntityRowUniqueId`
determines the entity-key-value combination and the event timestamp,
provided the string forms of corresponding entity key values have equal
lengths; equivalently, two entity rows that differ in their key combination
or timestamp receive different ids under that proviso. -/
theorem uid_injective_of_equal_lengths (v : FeatureView) (e1 e2 : EntityRow)
    (hlen : v.entities.map (fun c => (getVal e1.keys c).length) =
            v.entities.map (fun c => (getVal e2.keys c).length))
    (huid : entityRowUniqueId v e1 = entityRowUniqueId v e2) :
    v.entities.map (fun c => getVal e1.keys c) =
      v.entities.map (fun c => getVal e2.keys c) ∧ e1.ts = e2.ts := by
  unfold entityRowUniqueId at huid
  have hdata := congrArg String.data huid
  rw [sqlConcat_data, sqlConcat_data, List.map_append, List.map_append,
    List.map_cons, List.map_nil, List.map_map, List.map_map] at hdata
  have hlens : ((v.entities.map (String.data ∘ fun c => getVal e1.keys c)).map
      List.length) =
      (v.entities.map (String.data ∘ fun c => getVal e2.keys c)).map
        List.length := by
    rw [List.map_map, List.map_map]
    have hfun : ∀ (ks : List (String × String)),
        (List.length ∘ String.data ∘ fun c => getVal ks c) =
          fun c => (getVal ks c).length := by
      intro ks
      funext c
      rfl
    rw [hfun e1.keys, hfun e2.keys]
    exact hlen
  obtain ⟨hkeys, hts⟩ := flatten_snoc_inj _ _ _ _ hlens hdata
  constructor
  · have hinjdata : Function.Injective String.data := by
      intro s t h
      exact string_eq_of_data_eq h
    apply List.map_injective_iff.mpr hinjdata
    rw [← List.map_map, ← List.map_map] at hkeys
    exact hkeys
  · exact nat_repr_inj (string_eq_of_data_eq hts)

/-- Fixture for the C6 counterexample: a view with two entity key columns. -/
def cx6View : FeatureView := ⟨"fv", ["k1", "k2"], [], 0, false⟩

def cx6E1 : EntityRow := ⟨[("k1", "a"), ("k2", "bc")], 7⟩

def cx6E2 : EntityRow := ⟨[("k1", "ab"), ("k2", "c")], 7⟩

/-- C6 counterexample: two entity rows with different entity-key-value
combinations (`("a","bc")` versus `("ab","c")`) receive the same
`EntityRowUniqueId` `"abc7"` — the separator-free concatenation is not
injective. -/
theorem uid_not_injective_counterexample :
    entityRowUniqueId cx6View cx6E1 = entityRowUniqueId cx6View cx6E2 ∧
    cx6View.entities.map (fun c => getVal cx6E1.keys c) ≠
      cx6View.entities.map (fun c => getVal cx6E2.keys c) := by decide

/-- Fixture for the C6 witness: two rows whose key association lists are
permuted but whose projected key values and timestamps agree. -/
def w6E1 : EntityRow := ⟨[("k1", "a"), ("k2", "b")], 5⟩

def w6E2 : EntityRow := ⟨[("k2", "b"), ("k1", "a")], 5⟩

theorem uid_injective_witness :
    (cx6View.entities.map (fun c => (getVal w6E1.keys c).length) =
      cx6View.entities.map (fun c => (getVal w6E2.keys c).length)) ∧
    (entityRowUniqueId cx6View w6E1 = entityRowUniqueId cx6View w6E2) ∧
    (cx6View.entities.map (fun c => getVal w6E1.keys c) =
      cx6View.entities.map (fun c => getVal w6E2.keys c) ∧ w6E1.ts = w6E2.ts) :=
  ⟨by decide, by decide,
    uid_injective_of_equal_lengths cx6View w6E1 w6E2 (by decide) (by decide)⟩

/-! ### C8: output feature column naming -/

theorem viewJoinRows_names {ffn : Bool} {v : FeatureView} {es : List EntityRow}
    {srcs : List SourceRow} {e : EntityRow} :
    ∀ block ∈ viewJoinRows ffn v es srcs e,
      block.map Prod.fst = v.features.map (outName ffn v) := by
  intro block hb
  simp only [viewJoinRows] at hb
  split at hb
  · rw [List.mem_singleton] at hb
    subst hb
    simp [nullCols, List.map_map, Function.comp]
  · obtain ⟨b, _, rfl⟩ := List.mem_map.mp hb
    simp [featureCols, List.map_map, Function.comp]

theorem crossJoin_feature_names {ffn : Bool} {es : List EntityRow}
    {e : EntityRow} :
    ∀ (vl : List (FeatureView × List SourceRow))
      (fs : List (String × Option String)),
      fs ∈ crossJoin (vl.map (fun vp => viewJoinRows ffn vp.1 es vp.2 e)) →
      fs.map Prod.fst =
        (vl.map (fun vp => vp.1.features.map (outName ffn vp.1))).flatten := by
  intro vl
  induction vl with
  | nil =>
    intro fs h
    rw [List.map_nil, crossJoin, List.mem_singleton] at h
    subst h
    rfl
  | cons vp rest ih =>
    intro fs h
    rw [List.map_cons, crossJoin, List.mem_flatMap] at h
    obtain ⟨x, hx, hmem⟩ := h
    obtain ⟨fs', hfs', rfl⟩ := List.mem_map.mp hmem
    rw [List.map_append, viewJoinRows_names x hx, ih fs' hfs', List.map_cons,
      List.flatten_cons]

/-- C8: every output row's feature columns are named
`"{view}__{feature}"` when `full_feature_names` is set and carry the bare
feature names otherwise — the name list of any output row is exactly the
per-view feature name lists, renamed accordingly and concatenated. -/
theorem output_feature_naming (ffn : Bool)
    (views : List (FeatureView × List SourceRow)) (es : List EntityRow) :
    ∀ o ∈ finalOutput ffn views es,
      o.features.map Prod.fst =
        (views.map (fun vp => vp.1.features.map (fun f =>
          if ffn then vp.1.name ++ "__" ++ f else f))).flatten := by
  intro o ho
  obtain ⟨_, hcj⟩ := mem_finalOutput_elim ho
  exact crossJoin_feature_names views o.features hcj

theorem output_feature_naming_witness :
    ((⟨⟨[("k", "a")], 10⟩, [("fv__val", some "42")]⟩ : OutRow) ∈
      finalOutput true [(w1View, w1Srcs)] w1Es) ∧
    (⟨⟨[("k", "a")], 10⟩, [("fv__val", some "42")]⟩ : OutRow).features.map
        Prod.fst =
      ([(w1View, w1Srcs)].map (fun vp => vp.1.features.map (fun f =>
        if true then vp.1.name ++ "__" ++ f else f))).flatten :=
  ⟨by decide, output_feature_naming true [(w1View, w1Srcs)] w1Es _ (by decide)⟩

/-! ### Model of `spark_source.py`: SparkSource / SparkOptions -/

namespace Source

/-- `SparkOptions` (spark_source.py): the table-or-query read options. -/
structure SparkOptions where
  table : Option String
  query : Option String
deriving DecidableEq, Repr

/-- The `DataSourceProto` fields `SparkSource.to_proto` populates.  The
pickled `CustomSourceOptions.configuration` bytes are modelled by the
`SparkOptions` value they encode (`pickle.loads (pickle.dumps o)` gives back
an equal object). -/
structure DataSourceProto where
  field_mapping : List (String × String)
  custom_options : SparkOptions
  event_timestamp_column : String
  created_timestamp_column : String
  date_partition_column : String
deriving DecidableEq, Repr

/-- A constructed `SparkSource`.  The feast `DataSource` base class (an
external collaborator, modelled at its boundary) stores
`event_timestamp_column or ""`, `field_mapping or {}` and so on, so the
stored fields are plain strings and a plain mapping. -/
structure SparkSource where
  spark_options : SparkOptions
  event_timestamp_column : String
  created_timestamp_column : String
  field_mapping : List (String × String)
  date_partition_column : String
deriving DecidableEq, Repr

/-- `SparkSource.__init__`: builds the `SparkOptions` from `table`/`query`
and hands the remaining arguments to the base class, which defaults the
absent ones. -/
def SparkSource.make (table query event_timestamp_column
    created_timestamp_column : Option String)
    (field_mapping : Option (List (String × String)))
    (date_partition_column : Option String) : SparkSource :=
  ⟨⟨table, query⟩, event_timestamp_column.getD "",
    created_timestamp_column.getD "", field_mapping.getD [],
    date_partition_column.getD ""⟩

/-- `SparkOptions.to_proto`:
`CustomSourceOptions(configuration = pickle.dumps(self))`. -/
def SparkOptions.to_proto (o : SparkOptions) : SparkOptions := o

/-- `SparkOptions.from_proto`: unpickle the configuration and rebuild a
`SparkOptions` from its `table` and `query` attributes. -/
def SparkOptions.from_proto (configuration : SparkOptions) : SparkOptions :=
  ⟨configuration.table, configuration.query⟩

/-- `SparkSource.to_proto` (spark_source.py lines 91-102). -/
def SparkSource.to_proto (s : SparkSource) : DataSourceProto :=
  ⟨s.field_mapping, s.spark_options.to_proto, s.event_timestamp_column,
    s.created_timestamp_column, s.date_partition_column⟩

/-- `SparkSource.from_proto` (spark_source.py lines 71-89). -/
def SparkSource.from_proto (p : DataSourceProto) : SparkSource :=
  let spark_options := SparkOptions.from_proto p.custom_options
  SparkSource.make spark_options.table spark_options.query
    (some p.event_timestamp_column) (some p.created_timestamp_column)
    (some p.field_mapping) (some p.date_partition_column)

/-- C7: round trip through the persisted proto form: deserializing the
serialization of any source descriptor — table-kind or query-kind — returns
an equal descriptor, preserving table, query, the timestamp columns and the
field mapping. -/
theorem source_proto_round_trip (d : SparkSource) :
    SparkSource.from_proto (SparkSource.to_proto d) = d := by
  cases d with
  | mk opts ets cts fm dpc =>
    cases opts
    rfl

/-- Outcome of schema discovery against a backend, modelled as the mapping
of existing relation names to their `(column, type)` schemas. -/
inductive SchemaResult where
  | ok (fields : List (String × String))
  | sourceNotFound (table : String)
  | engineError
deriving DecidableEq, Repr

/-- `SparkSource.get_table_column_names_and_types` (spark_source.py lines
112-130): reads `spark_session.table(self.table).schema`, converting an
`AnalysisException` into `DataSourceNotFoundException(self.table)`.  It
always addresses `self.table`; for a query-kind source that attribute is
`None` and `spark_session.table(None)` fails inside the engine with an error
the `except AnalysisException` clause does not convert (`engineError`). -/
def get_table_column_names_and_types
    (backend : List (String × List (String × String))) (s : SparkSource) :
    SchemaResult :=
  match s.spark_options.table with
  | none => .engineError
  | some t =>
    match List.lookup t backend with
    | some fields => .ok fields
    | none => .sourceNotFound t

/-- C9 (amended): for a table-kind descriptor, schema discovery raises the
source-not-found error naming the table exactly when the relation is absent
from the backend and returns the relation's `(column, type)` pairs when it
is present; a query-kind descriptor (no table) never reaches the backend
lookup and always fails, whatever the backend holds. -/
theorem schema_discovery_addresses_table_only
    (backend : List (String × List (String × String))) (s : SparkSource) :
    (∀ t, s.spark_options.table = some t →
      (∀ fields, List.lookup t backend = some fields →
        get_table_column_names_and_types backend s = .ok fields) ∧
      (List.lookup t backend = none →
        get_table_column_names_and_types backend s = .sourceNotFound t)) ∧
    (s.spark_options.table = none →
      get_table_column_names_and_types backend s = .engineError) := by
  constructor
  · intro t ht
    constructor
    · intro fields hf
      simp [get_table_column_names_and_types, ht, hf]
    · intro hf
      simp [get_table_column_names_and_types, ht, hf]
  · intro ht
    simp [get_table_column_names_and_types, ht]

/-- Fixture for the C9 counterexample: a query-kind descriptor whose query
reads a relation that does exist in the backend. -/
def cx9Source : SparkSource :=
  SparkSource.make none (some "SELECT * FROM t") none none none none

def cx9Backend : List (String × List (String × String)) :=
  [("t", [("c", "int")])]

/-- C9 counterexample: for this query-kind descriptor the addressed relation
exists, yet schema discovery fails with an engine error instead of returning
the `(column, type)` pairs — discovery never consults the query. -/
theorem schema_discovery_counterexample :
    cx9Source.spark_options.query = some "SELECT * FROM t" ∧
    cx9Source.spark_options.table = none ∧
    List.lookup "t" cx9Backend = some [("c", "int")] ∧
    get_table_column_names_and_types cx9Backend cx9Source =
      SchemaResult.engineError := by decide

end Source

/-! ### Model of `SparkOfflineStore.pull_latest_from_table_or_query` -/

namespace PullLatest

/-- A row of the source relation addressed by
`pull_latest_from_table_or_query`: the join key column values (in
`join_key_columns` order), the event timestamp, the created timestamp
(consulted only when a created-timestamp column is declared) and the
feature payload. -/
structure Row where
  keys : List String
  eventTs : Nat
  createdTs : Nat
  features : List String
deriving DecidableEq, Repr

/-- The strict "ranks above" relation of the window
`ROW_NUMBER() OVER (PARTITION BY join_keys ORDER BY event_timestamp DESC
[, created_timestamp DESC])`. -/
def rankedAbove (hasCreated : Bool) (a b : Row) : Bool :=
  decide (b.eventTs < a.eventTs) ||
  (a.eventTs == b.eventTs && hasCreated && decide (b.createdTs < a.createdTs))

/-- The row numbered 1 in one partition: the first row, in partition order,
that no other row of the partition ranks above. -/
def pickLatest (hasCreated : Bool) : List Row → Option Row
  | [] => none
  | r :: rs => some (rs.foldl
      (fun best x => if rankedAbove hasCreated x best then x else best) r)

/-- The query built by `pull_latest_from_table_or_query` (spark.py lines
57-82): keep the rows with `event_timestamp BETWEEN start_date AND
end_date`, number the rows of each join-key partition by event timestamp
descending then (when declared) created timestamp descending, and keep the
row numbered 1 of each partition. -/
def pullLatestRows (hasCreated : Bool) (startD endD : Nat) (rows : List Row) :
    List Row :=
  let filtered := rows.filter
    (fun r => decide (startD ≤ r.eventTs) && decide (r.eventTs ≤ endD))
  (filtered.map Row.keys).dedup.filterMap (fun k =>
    pickLatest hasCreated (filtered.filter (fun r => r.keys == k)))

/-- The `SparkRetrievalJob` the call returns (spark.py lines 84-89). -/
structure RetrievalJob where
  rows : List Row
  full_feature_names : Bool
  on_demand_feature_views : Option (List String)
deriving DecidableEq, Repr

/-- `SparkOfflineStore.pull_latest_from_table_or_query`: runs the query
above and wraps it with `full_feature_names=False` and
`on_demand_feature_views=None`. -/
def pull_latest_from_table_or_query (hasCreated : Bool) (startD endD : Nat)
    (rows : List Row) : RetrievalJob :=
  ⟨pullLatestRows hasCreated startD endD rows, false, none⟩

theorem rankedAbove_irrefl (hc : Bool) (a : Row) : rankedAbove hc a a = false := by
  simp [rankedAbove]

theorem rankedAbove_trans {hc : Bool} {a b c : Row}
    (h1 : rankedAbove hc a b = true) (h2 : rankedAbove hc b c = true) :
    rankedAbove hc a c = true := by
  simp only [rankedAbove, Bool.or_eq_true, Bool.and_eq_true,
    decide_eq_true_eq, beq_iff_eq] at h1 h2 ⊢
  rcases h1 with h1 | ⟨⟨he1, hc1⟩, hr1⟩ <;> rcases h2 with h2 | ⟨⟨he2, hc2⟩, hr2⟩
  · exact Or.inl (lt_trans h2 h1)
  · exact Or.inl (he2 ▸ h1)
  · exact Or.inl (he1.symm ▸ h2)
  · exact Or.inr ⟨⟨he1.trans he2, hc1⟩, lt_trans hr2 hr1⟩

theorem rankedAbove_iff {hc : Bool} {a b : Row} :
    rankedAbove hc a b = true ↔
      (b.eventTs < a.eventTs ∨
        (a.eventTs = b.eventTs ∧ hc = true ∧ b.createdTs < a.createdTs)) := by
  simp [rankedAbove, Bool.and_eq_true, and_assoc]

theorem rankedAbove_false_iff {hc : Bool} {a b : Row} :
    rankedAbove hc a b = false ↔
      ¬ (b.eventTs < a.eventTs ∨
        (a.eventTs = b.eventTs ∧ hc = true ∧ b.createdTs < a.createdTs)) := by
  rw [← rankedAbove_iff]
  constructor
  · intro h hx
    rw [h] at hx
    cases hx
  · intro h
    exact Bool.eq_false_iff.mpr (fun hx => h hx)

theorem rankedAbove_neg_trans {hc : Bool} {a b c : Row}
    (h1 : rankedAbove hc a b = false) (h2 : rankedAbove hc b c = false) :
    rankedAbove hc a c = false := by
  rw [rankedAbove_false_iff] at h1 h2
  rw [rankedAbove_false_iff]
  intro hac
  obtain ⟨h1a, h1b⟩ := not_or.mp h1
  obtain ⟨h2a, h2b⟩ := not_or.mp h2
  rcases hac with h | ⟨he, hhc, hcc⟩
  · omega
  · have hab : a.eventTs = b.eventTs := by omega
    have hbc : b.eventTs = c.eventTs := by omega
    have h1c : ¬ b.createdTs < a.createdTs := fun hx => h1b ⟨hab, hhc, hx⟩
    have h2c : ¬ c.createdTs < b.createdTs := fun hx => h2b ⟨hbc, hhc, hx⟩
    omega

theorem foldl_pick_spec (hc : Bool) :
    ∀ (l : List Row) (r : Row),
      (l.foldl (fun best x => if rankedAbove hc x best then x else best) r)
        ∈ r :: l ∧
      ∀ x ∈ r :: l,
        rankedAbove hc x
          (l.foldl (fun best x => if rankedAbove hc x best then x else best) r)
          = false := by
  intro l
  induction l with
  | nil =>
    intro r
    refine ⟨List.mem_cons_self r [], ?_⟩
    intro x hx
    rw [List.mem_singleton] at hx
    subst hx
    exact rankedAbove_irrefl hc x
  | cons y t ih =>
    intro r
    rw [List.foldl_cons]
    by_cases h : rankedAbove hc y r = true
    · rw [if_pos h]
      obtain ⟨hmem, hmax⟩ := ih y
      constructor
      · rcases List.mem_cons.mp hmem with hm | hm
        · rw [hm]
          exact List.mem_cons_of_mem r (List.mem_cons_self y t)
        · exact List.mem_cons_of_mem r (List.mem_cons_of_mem y hm)
      · intro x hx
        rcases List.mem_cons.mp hx with h1 | hx'
        · rw [h1]
          by_contra hr
          rw [Bool.not_eq_false] at hr
          have := rankedAbove_trans h hr
          rw [hmax y (List.mem_cons_self y t)] at this
          cases this
        · exact hmax x hx'
    · rw [if_neg h]
      rw [Bool.not_eq_true] at h
      obtain ⟨hmem, hmax⟩ := ih r
      constructor
      · rcases List.mem_cons.mp hmem with hm | hm
        · rw [hm]
          exact List.mem_cons_self r (y :: t)
        · exact List.mem_cons_of_mem r (List.mem_cons_of_mem y hm)
      · intro x hx
        rcases List.mem_cons.mp hx with h1 | hx'
        · rw [h1]
          exact hmax r (List.mem_cons_self r t)
        · rcases List.mem_cons.mp hx' with h2 | hx''
          · rw [h2]
            exact rankedAbove_neg_trans h (hmax r (List.mem_cons_self r t))
          · exact hmax x (List.mem_cons_of_mem r hx'')

theorem pickLatest_spec {hc : Bool} {l : List Row} {r : Row}
    (h : pickLatest hc l = some r) :
    r ∈ l ∧ ∀ x ∈ l, rankedAbove hc x r = false := by
  cases l with
  | nil => cases h
  | cons a t =>
    obtain ⟨hmem, hmax⟩ := foldl_pick_spec hc t a
    rw [pickLatest, Option.some_inj] at h
    exact ⟨h ▸ hmem, h ▸ hmax⟩

theorem mem_pullLatestRows_elim {hc : Bool} {startD endD : Nat}
    {rows : List Row} {r : Row} (h : r ∈ pullLatestRows hc startD endD rows) :
    r ∈ rows ∧ startD ≤ r.eventTs ∧ r.eventTs ≤ endD ∧
    ∀ r' ∈ rows, r'.keys = r.keys → startD ≤ r'.eventTs → r'.eventTs ≤ endD →
      rankedAbove hc r' r = false := by
  simp only [pullLatestRows, List.mem_filterMap] at h
  obtain ⟨k, _, hpick⟩ := h
  obtain ⟨hmem, hmax⟩ := pickLatest_spec hpick
  rw [List.mem_filter] at hmem
  obtain ⟨hfil, hkeys⟩ := hmem
  rw [List.mem_filter] at hfil
  obtain ⟨hrows, hwin⟩ := hfil
  simp only [Bool.and_eq_true, decide_eq_true_eq] at hwin
  refine ⟨hrows, hwin.1, hwin.2, ?_⟩
  intro r' hr' hk hs he
  apply hmax
  rw [List.mem_filter, List.mem_filter]
  refine ⟨⟨hr', ?_⟩, ?_⟩
  · simp only [Bool.and_eq_true, decide_eq_true_eq]
    exact ⟨hs, he⟩
  · rw [beq_iff_eq, hk]
    exact beq_iff_eq.mp hkeys

theorem countP_filterMap_keyed (K : List (List String)) (hK : K.Nodup)
    (f : List String → Option Row)
    (hf : ∀ k r, f k = some r → r.keys = k) (k0 : List String) :
    ((K.filterMap f).countP (fun r => r.keys == k0)) ≤ 1 := by
  induction K with
  | nil => simp
  | cons a t ih =>
    obtain ⟨ha, ht⟩ := List.nodup_cons.mp hK
    rw [List.filterMap_cons]
    cases hfa : f a with
    | none => exact ih ht
    | some r =>
      rw [List.countP_cons]
      by_cases h : r.keys == k0
      · have hk0 : k0 = a := by
          rw [← hf a r hfa]
          exact (beq_iff_eq.mp h).symm
        have hzero : (t.filterMap f).countP (fun r => r.keys == k0) = 0 := by
          rw [List.countP_eq_zero]
          intro r' hr'
          obtain ⟨k', hk', hfk'⟩ := List.mem_filterMap.mp hr'
          rw [hf k' r' hfk', hk0]
          intro hc
          exact ha ((beq_iff_eq.mp hc) ▸ hk')
        rw [hzero, h, if_pos rfl]
      · rw [Bool.not_eq_true] at h
        rw [h, if_neg (by simp)]
        rw [Nat.add_zero]
        exact ih ht

theorem pullLatestRows_keys {hc : Bool} {startD endD : Nat} {rows : List Row}
    (k0 : List String) :
    ((pullLatestRows hc startD endD rows).countP (fun r => r.keys == k0)) ≤ 1 := by
  apply countP_filterMap_keyed _ (List.nodup_dedup _) _ _ k0
  intro k r hpick
  obtain ⟨hmem, _⟩ := pickLatest_spec hpick
  rw [List.mem_filter] at hmem
  exact beq_iff_eq.mp hmem.2

/-- C10: the query built by `pull_latest_from_table_or_query` considers only
source rows with event timestamp between `start_date` and `end_date`
inclusive, keeps at most one row per distinct join-key combination — a row
no other in-range row of the same keys ranks above under event timestamp
descending then (when declared) created timestamp descending — and the
returned retrieval job always carries `full_feature_names = false` and no
on-demand feature views. -/
theorem pull_latest_spec (hc : Bool) (startD endD : Nat) (rows : List Row) :
    (pull_latest_from_table_or_query hc startD endD rows).full_feature_names
      = false ∧
    (pull_latest_from_table_or_query hc startD endD rows).on_demand_feature_views
      = none ∧
    (∀ r ∈ (pull_latest_from_table_or_query hc startD endD rows).rows,
      r ∈ rows ∧ startD ≤ r.eventTs ∧ r.eventTs ≤ endD ∧
      ∀ r' ∈ rows, r'.keys = r.keys → startD ≤ r'.eventTs →
        r'.eventTs ≤ endD → rankedAbove hc r' r = false) ∧
    (∀ k, ((pull_latest_from_table_or_query hc startD endD rows).rows.countP
      (fun r => r.keys == k)) ≤ 1) := by
  refine ⟨rfl, rfl, ?_, ?_⟩
  · intro r hr
    exact mem_pullLatestRows_elim hr
  · intro k
    exact pullLatestRows_keys k

end PullLatest

end FeastSpark
